import Mathlib

/-!
Verification of the rw text and tabular I/O utility library.

Strings are modelled as lists of characters; file contents and streams are
lists of characters; a file read line-by-line is a list of lines.  Each
definition below embeds one Go function (or the relevant fragment of the
standard library it calls) from rw.go, keeping the source structure:
the CSV writer follows encoding/csv Writer.Write with its default
configuration (Comma = comma, UseCRLF = false), and the CSV reader follows
encoding/csv Reader.Read with its default configuration (Comma = comma,
no Comment, LazyQuotes = false, TrimLeadingSpace = false,
FieldsPerRecord = 0).  Recursive parsers carry an explicit fuel argument
bounded below by the input length, so every definition is executable by
kernel reduction.
-/

namespace Rw

/-- The exact White_Space set of unicode.IsSpace in Go: the Latin-1 cases
listed in isSpace and the higher code points of the White_Space table. -/
def goIsSpace (c : Char) : Bool :=
  decide (c.toNat ∈ ([9, 10, 11, 12, 13, 32, 0x85, 0xA0, 0x1680,
    0x2000, 0x2001, 0x2002, 0x2003, 0x2004, 0x2005, 0x2006, 0x2007,
    0x2008, 0x2009, 0x200A, 0x2028, 0x2029, 0x202F, 0x205F, 0x3000] : List Nat))

/-- Remove the longest suffix whose characters all satisfy p; this is the
shape of strings.TrimRight with a cutset. -/
def dropRightWhile (p : Char → Bool) (s : List Char) : List Char :=
  (s.reverse.dropWhile p).reverse

/-- strings.TrimRight(s, a string holding carriage return and line feed). -/
def trimRightCRLF (s : List Char) : List Char :=
  dropRightWhile (fun c => c = '\r' || c = '\n') s

/-- strings.TrimRight(s, a string holding comma and space). -/
def trimRightCommaSpace (s : List Char) : List Char :=
  dropRightWhile (fun c => c = ',' || c = ' ') s

/-- strings.TrimSpace: drop unicode white space from both ends. -/
def goTrimSpace (s : List Char) : List Char :=
  dropRightWhile goIsSpace (s.dropWhile goIsSpace)

/-- Outcome of the os.Stat call in FileExists: none models a nil error,
some e models an error whose os.IsNotExist answer is recorded in e. -/
structure StatError where
  isNotExist : Bool
deriving DecidableEq

/-- FileExists from rw.go: on a nil stat error return true, otherwise
return the negation of os.IsNotExist applied to the error. -/
def FileExists (statResult : Option StatError) : Bool :=
  match statResult with
  | none => true
  | some e => !e.isNotExist

/-- ConcatListNicely from rw.go: the loop appends every non-empty entry
followed by a comma and a space to the accumulator, then the result is
passed to strings.TrimRight with the comma-space cutset. -/
def ConcatListNicely (list : List (List Char)) : List Char :=
  trimRightCommaSpace
    (list.foldl (fun res r => if r = [] then res else res ++ r ++ [',', ' ']) [])

/-- Leftmost occurrence of sep in s: returns the part before the
occurrence and the part after it, or none when sep does not occur.
This is the repeated strings.Index step inside strings.Split. -/
def findSep (sep : List Char) : List Char → Option (List Char × List Char)
  | [] => if sep = [] then some ([], []) else none
  | c :: rest =>
    if sep.isPrefixOf (c :: rest) then some ([], (c :: rest).drop sep.length)
    else
      match findSep sep rest with
      | none => none
      | some (pre, post) => some (c :: pre, post)

/-- The splitting loop of strings.Split for a non-empty separator: cut at
each leftmost, non-overlapping occurrence of sep.  The fuel argument only
bounds the recursion; the number of pieces is at most the input length
plus one, so the top-level call never exhausts it. -/
def splitSeqAux (sep : List Char) : Nat → List Char → List (List Char)
  | 0, s => [s]
  | fuel + 1, s =>
    match findSep sep s with
    | none => [s]
    | some (pre, post) => pre :: splitSeqAux sep fuel post

/-- strings.Split: an empty separator explodes the string into single
runes, otherwise split around every occurrence of the separator. -/
def goSplit (s sep : List Char) : List (List Char) :=
  if sep = [] then s.map (fun c => [c])
  else splitSeqAux sep (s.length + 1) s

/-- SplitLines from rw.go: strings.Split applied to every line in order. -/
def SplitLines (lines : List (List Char)) (sep : List Char) : List (List (List Char)) :=
  lines.map (fun l => goSplit l sep)

/-- The loop of ReadLinesFromStdin from rw.go.  The input models the
sequence of successful bufio ReadLine results (terminator already
stripped); once the list is exhausted every further read reports
end-of-stream, and the Go loop then returns on the first or second
iteration without adding lines, so the empty input case returns the
accumulated lines for either value of the skip flag. -/
def readLinesLoop : Bool → List (List Char) → List (List Char)
  | _, [] => []
  | skip, a :: rest =>
    if trimRightCRLF a = [] then
      if skip then [] else readLinesLoop true rest
    else trimRightCRLF a :: readLinesLoop false rest

/-- ReadLinesFromStdin from rw.go, started with the skip flag clear. -/
def ReadLinesFromStdin (input : List (List Char)) : List (List Char) :=
  readLinesLoop false input

/-- Specification-side helper for the termination rule: keep the prefix of
the line list strictly before the first two adjacent blank lines. -/
def cutAtDoubleBlank : List (List Char) → List (List Char)
  | [] => []
  | [a] => [a]
  | a :: b :: rest =>
    if a = [] ∧ b = [] then [] else a :: cutAtDoubleBlank (b :: rest)

/-- encoding/csv Writer.fieldNeedsQuotes for the default comma: true for
the PostgreSQL end-of-data marker, for a field containing a comma, a
quote, a carriage return or a line feed, and for a field whose first rune
is unicode white space; an empty field needs no quotes. -/
def fieldNeedsQuotes (f : List Char) : Bool :=
  match f with
  | [] => false
  | c :: _ =>
    f = ['\\', '.'] || f.any (fun d => d = ',' || d = '"' || d = '\r' || d = '\n')
      || goIsSpace c

/-- The quoted-field body emitted by encoding/csv Writer.Write with
UseCRLF false: quotes are doubled, every other character (carriage
returns and line feeds included) is copied unchanged. -/
def escapeQuoted : List Char → List Char
  | [] => []
  | c :: rest =>
    if c = '"' then '"' :: '"' :: escapeQuoted rest else c :: escapeQuoted rest

/-- One field as written by encoding/csv Writer.Write. -/
def writeField (f : List Char) : List Char :=
  if fieldNeedsQuotes f then '"' :: (escapeQuoted f ++ ['"']) else f

/-- The comma-joined fields of one record as written by Writer.Write. -/
def recBody : List (List Char) → List Char
  | [] => []
  | [f] => writeField f
  | f :: rest => writeField f ++ ',' :: recBody rest

/-- One full record line: the joined fields plus the line feed terminator
(UseCRLF is false). -/
def writeRecord (r : List (List Char)) : List Char :=
  recBody r ++ ['\n']

/-- The concatenation of the record lines of a list of records. -/
def writeAll : List (List (List Char)) → List Char
  | [] => []
  | r :: rest => writeRecord r ++ writeAll rest

/-- CommaSep from rw.go on the happy path (the csv file was created):
the header record is written first, then every data row, then the writer
is flushed; this is the byte content of the created file. -/
def CommaSepContent (headers : List (List Char)) (values : List (List (List Char))) : List Char :=
  writeRecord headers ++ writeAll values

/-- The per-line carriage-return handling of encoding/csv readLine: a
carriage return directly before a line feed is dropped, and a trailing
carriage return at end of input is dropped. -/
def normalizeCRLF : List Char → List Char
  | [] => []
  | c :: rest =>
    if c = '\r' then
      match rest with
      | [] => []
      | c2 :: rest2 =>
        if c2 = '\n' then '\n' :: normalizeCRLF rest2
        else '\r' :: normalizeCRLF (c2 :: rest2)
    else c :: normalizeCRLF rest

/-- How a parsed CSV field ended: at a comma, at end of line, or at end
of input. -/
inductive FieldEnd
  | comma
  | newline
  | eofEnd
deriving DecidableEq

/-- The non-quoted branch of encoding/csv Reader.Read: the field runs to
the next comma or end of line; with LazyQuotes false a quote inside the
field aborts the read (ErrBareQuote).  Errors are none. -/
def unquoted (acc : List Char) : List Char → Option (List Char × FieldEnd × List Char)
  | [] => some (acc.reverse, FieldEnd.eofEnd, [])
  | c :: rest =>
    if c = ',' then some (acc.reverse, FieldEnd.comma, rest)
    else if c = '\n' then some (acc.reverse, FieldEnd.newline, rest)
    else if c = '"' then none
    else unquoted (c :: acc) rest

/-- The quoted branch of encoding/csv Reader.Read, entered after the
opening quote: characters up to the next quote belong to the field (line
feeds included, which is how quoted fields span lines); after a quote,
a second quote is a literal quote, a comma ends the field, a line feed or
end of input ends the record, and anything else is ErrQuote; end of input
before a closing quote is also ErrQuote.  Errors are none. -/
def quoted (acc : List Char) : List Char → Option (List Char × FieldEnd × List Char)
  | [] => none
  | c :: rest =>
    if c = '"' then
      match rest with
      | [] => some (acc.reverse, FieldEnd.eofEnd, [])
      | c2 :: rest2 =>
        if c2 = '"' then quoted ('"' :: acc) rest2
        else if c2 = ',' then some (acc.reverse, FieldEnd.comma, rest2)
        else if c2 = '\n' then some (acc.reverse, FieldEnd.newline, rest2)
        else none
    else quoted (c :: acc) rest

/-- Dispatch of Reader.Read on one field: a leading quote selects the
quoted branch, anything else (an empty rest of line included) the
non-quoted branch. -/
def parseField1 : List Char → Option (List Char × FieldEnd × List Char)
  | [] => unquoted [] []
  | c :: rest => if c = '"' then quoted [] rest else unquoted [] (c :: rest)

/-- The parseField loop of Reader.Read: fields accumulate until one ends
the record.  The fuel only bounds the recursion: every continuation
consumes at least the comma, so any fuel above the input length is
enough. -/
def parseRecAux : Nat → List (List Char) → List Char → Option (List (List Char) × List Char)
  | 0, _, _ => none
  | fuel + 1, acc, cs =>
    match parseField1 cs with
    | none => none
    | some (f, FieldEnd.comma, rest) => parseRecAux fuel (f :: acc) rest
    | some (f, FieldEnd.newline, rest) => some ((f :: acc).reverse, rest)
    | some (f, FieldEnd.eofEnd, rest) => some ((f :: acc).reverse, rest)

/-- The blank-line skipping loop at the start of Reader.Read: a line
whose whole content is its line feed is skipped. -/
def skipBlanks : List Char → List Char
  | [] => []
  | c :: rest => if c = '\n' then skipBlanks rest else c :: rest

/-- The Read loop of ReadCsvFile from rw.go: records accumulate until end
of input; a record that fails to parse ends the read with the records
accumulated so far; the first record fixes the expected field count
(FieldsPerRecord zero) and a later record of a different length is
ErrFieldCount, which also ends the read without keeping that record.
The fuel only bounds the recursion: every record consumes at least one
character, so any fuel above the input length is enough. -/
def readAllAux : Nat → Option Nat → List (List (List Char)) → List Char → List (List (List Char))
  | 0, _, acc, _ => acc.reverse
  | fuel + 1, expected, acc, cs =>
    match skipBlanks cs with
    | [] => acc.reverse
    | c :: rest =>
      match parseRecAux ((c :: rest).length + 1) [] (c :: rest) with
      | none => acc.reverse
      | some (rec, rest2) =>
        match expected with
        | none => readAllAux fuel (some rec.length) (rec :: acc) rest2
        | some n =>
          if rec.length = n then readAllAux fuel (some n) (rec :: acc) rest2
          else acc.reverse

/-- ReadCsvFile from rw.go applied to the content of an existing,
openable file. -/
def ReadCsvFile (contents : List Char) : List (List (List Char)) :=
  readAllAux ((normalizeCRLF contents).length + 1) none [] (normalizeCRLF contents)

/-- A Go interface value as passed to the formatting helpers: either a
string or a value of some other dynamic type. -/
inductive GoValue
  | str (s : List Char)
  | intV (n : Int)
  | boolV (b : Bool)
deriving DecidableEq

/-- The unchecked type assertion to string in XmlPretty: on a string it
yields the string, on any other dynamic type it panics (error here). -/
def assertString : GoValue → Except Unit (List Char)
  | GoValue.str s => Except.ok s
  | GoValue.intV _ => Except.error ()
  | GoValue.boolV _ => Except.error ()

/-- XmlPretty from rw.go.  The formatXML helper is passed as a parameter
because the type assertion on the argument is evaluated before formatXML
is ever called; a formatXML error is returned as the result string, and a
panic of the assertion propagates (no recover anywhere in rw.go). -/
def XmlPretty (formatXML : List Char → Except (List Char) (List Char))
    (v : GoValue) : Except Unit (List Char) :=
  match assertString v with
  | Except.error e => Except.error e
  | Except.ok s =>
    match formatXML s with
    | Except.error msg => Except.ok msg
    | Except.ok out => Except.ok out

/-- fs from rw.go: strings.Repeat of one dash per character of the
header (Go measures len in bytes; strings are character lists here). -/
def fs (p : List Char) : List Char :=
  List.replicate p.length '-'

/-- The body of one emitted table line: each cell followed by a tab,
exactly the Fprintf sequence in TabFlex before the line feed. -/
def lineOf (cells : List (List Char)) : List Char :=
  (cells.map (fun c => c ++ ['\t'])).flatten

/-- One emitted table line: the cell bodies, then the line feed. -/
def cellsLine (cells : List (List Char)) : List Char :=
  lineOf cells ++ ['\n']

/-- The cells of one data row as emitted by the TabFlex row loop: column
index i shows the empty string when the row has at most i cells, and the
cell at i otherwise, for every i below the header count. -/
def rowCells (headers : List (List Char)) (v : List (List Char)) : List (List Char) :=
  (List.range headers.length).map (fun i => v.getD i [])

/-- TabFlex from rw.go as the character stream handed to the tab writer:
header line, dash line built by fs per header, one line per data row,
and a closing dash line built the same way. -/
def TabFlexStream (headers : List (List Char)) (values : List (List (List Char))) : List Char :=
  cellsLine headers ++ cellsLine (headers.map fs)
    ++ (values.map (fun v => cellsLine (rowCells headers v))).flatten
    ++ cellsLine (headers.map fs)

/-- Split a character stream at every line feed; a stream ending in a
line feed yields a final empty segment. -/
def splitNl : List Char → List (List Char)
  | [] => [[]]
  | c :: rest =>
    if c = '\n' then [] :: splitNl rest
    else
      match splitNl rest with
      | [] => [[c]]
      | seg :: segs => (c :: seg) :: segs

/-- An operation on the file handle a helper opens. -/
inductive HandleOp
  | openH
  | closeH
deriving DecidableEq

/-- The handle operations ReadCsvFile performs on its file: os.Open
yields the handle when it succeeds, and no path of the function body
calls Close (there is no defer and no Close call in rw.go lines 48-67),
whether the record loop ends at end of input or at a read error. -/
def readCsvFileHandleTrace (openOk : Bool) : List HandleOp :=
  if openOk then [HandleOp.openH] else []

/-- The handle operations LoadLines performs on its file: os.Open yields
the handle, and the deferred Close runs on every return path. -/
def loadLinesHandleTrace (openOk : Bool) : List HandleOp :=
  if openOk then [HandleOp.openH, HandleOp.closeH] else []

/-- The handle operations ReadFileBytes performs: os.ReadFile opens the
file and closes it internally before returning, on success and failure. -/
def readFileBytesHandleTrace (openOk : Bool) : List HandleOp :=
  if openOk then [HandleOp.openH, HandleOp.closeH] else []

/-- The handle operations NewCsvFile performs: os.Create yields the
handle and the function returns the csv writer around it still open,
transferring the close and flush obligation to the caller. -/
def newCsvFileHandleTrace (createOk : Bool) : List HandleOp :=
  if createOk then [HandleOp.openH] else []

/-- Number of closes recorded in a trace. -/
def closeCount (t : List HandleOp) : Nat :=
  t.countP (fun op => op = HandleOp.closeH)

/-- Number of opens recorded in a trace. -/
def openCount (t : List HandleOp) : Nat :=
  t.countP (fun op => op = HandleOp.openH)

/-- Whether a string is non-empty, the guard the C6 loop applies. -/
def isNonempty : List Char → Bool
  | [] => false
  | _ :: _ => true

/-- Specification-side join of the C6 claim: the entries joined in order
with a comma and a space between neighbours. -/
def joinComma : List (List Char) → List Char
  | [] => []
  | [f] => f
  | f :: rest => f ++ ',' :: ' ' :: joinComma rest

/-- Whether a formatting call produced a string result (true) or a
panic (false). -/
def exceptIsOk : Except Unit (List Char) → Bool
  | Except.ok _ => true
  | Except.error _ => false

/-! Helper lemmas about the trimming helpers. -/

lemma dropRightWhile_append_unit (p : Char → Bool) (x : List Char) (c : Char)
    (hc : p c = true) : dropRightWhile p (x ++ [c]) = dropRightWhile p x := by
  simp [dropRightWhile, List.dropWhile_cons, hc]

lemma trimRightCommaSpace_append_sep (x : List Char) :
    trimRightCommaSpace (x ++ [',', ' ']) = trimRightCommaSpace x := by
  have h : x ++ [',', ' '] = (x ++ [',']) ++ [' '] := by simp
  rw [h]
  unfold trimRightCommaSpace
  rw [dropRightWhile_append_unit _ _ _ (by decide),
    dropRightWhile_append_unit _ _ _ (by decide)]

lemma dropWhile_dropWhile_self (p : Char → Bool) (l : List Char) :
    (l.dropWhile p).dropWhile p = l.dropWhile p := by
  induction l with
  | nil => simp
  | cons c rest ih =>
    by_cases hp : p c = true
    · simp [List.dropWhile_cons, hp, ih]
    · simp [List.dropWhile_cons, hp]

lemma trimRightCRLF_idem (l : List Char) :
    trimRightCRLF (trimRightCRLF l) = trimRightCRLF l := by
  simp [trimRightCRLF, dropRightWhile, dropWhile_dropWhile_self]

/-! Helper lemmas for ConcatListNicely. -/

lemma foldl_concat_step (l : List (List Char)) : ∀ init : List Char,
    l.foldl (fun res r => if r = [] then res else res ++ r ++ [',', ' ']) init
      = init ++ ((l.filter isNonempty).map (fun r => r ++ [',', ' '])).flatten := by
  induction l with
  | nil => intro init; simp
  | cons r rest ih =>
    intro init
    cases r with
    | nil => simpa [isNonempty] using ih init
    | cons c r' =>
      simpa [isNonempty, List.append_assoc] using ih (init ++ (c :: r') ++ [',', ' '])

lemma flatTrail_cons_eq (f : List Char) (fs : List (List Char)) :
    ((f :: fs).map (fun r => r ++ [',', ' '])).flatten
      = joinComma (f :: fs) ++ [',', ' '] := by
  induction fs generalizing f with
  | nil => simp [joinComma]
  | cons g fs' ih =>
    rw [List.map_cons, List.flatten_cons, ih g]
    simp [joinComma, List.append_assoc]

/-! Helper lemmas for the stdin line reader. -/

lemma readLinesLoop_nonblank (b : List Char) (r : List (List Char))
    (hb : trimRightCRLF b ≠ []) :
    readLinesLoop true (b :: r) = readLinesLoop false (b :: r) := by
  simp [readLinesLoop, hb]

lemma readLines_characterization (input : List (List Char)) :
    ReadLinesFromStdin input
      = (cutAtDoubleBlank (input.map trimRightCRLF)).filter (fun l => l ≠ []) := by
  unfold ReadLinesFromStdin
  induction input with
  | nil => simp [readLinesLoop, cutAtDoubleBlank]
  | cons a rest ih =>
    by_cases ha : trimRightCRLF a = []
    · cases rest with
      | nil => simp [readLinesLoop, ha, cutAtDoubleBlank]
      | cons b rest2 =>
        by_cases hb : trimRightCRLF b = []
        · simp [readLinesLoop, ha, hb, cutAtDoubleBlank]
        · have h1 : readLinesLoop false (a :: b :: rest2) = readLinesLoop true (b :: rest2) := by
            simp [readLinesLoop, ha]
          rw [h1, readLinesLoop_nonblank b rest2 hb, ih]
          simp [cutAtDoubleBlank, ha, hb]
    · cases rest with
      | nil => simp [readLinesLoop, ha, cutAtDoubleBlank]
      | cons b rest2 =>
        have h1 : readLinesLoop false (a :: b :: rest2)
            = trimRightCRLF a :: readLinesLoop false (b :: rest2) := by
          simp [readLinesLoop, ha]
        rw [h1, ih]
        simp [cutAtDoubleBlank, ha]

lemma cutAtDoubleBlank_sublist (l : List (List Char)) :
    (cutAtDoubleBlank l).Sublist l := by
  induction l with
  | nil => simp [cutAtDoubleBlank]
  | cons a rest ih =>
    cases rest with
    | nil => simp [cutAtDoubleBlank]
    | cons b rest2 =>
      by_cases h : a = [] ∧ b = []
      · simp [cutAtDoubleBlank, h]
      · simp only [cutAtDoubleBlank, if_neg h]
        exact List.Sublist.cons₂ a ih

/-! Claim theorems for the simple helpers. -/

/-- C3: FileExists returns true when the stat call succeeds, and on a
stat failure returns true exactly when the error is not a does-not-exist
error, so permission and other stat errors report the file as existing. -/
theorem c3_fileExists_error_bias :
    FileExists none = true
    ∧ ∀ e : StatError, (FileExists (some e) = true ↔ e.isNotExist = false) := by
  refine ⟨rfl, ?_⟩
  intro e
  cases e with
  | mk b => cases b <;> simp [FileExists]

/-- C6 counterexample: the claim says only the single trailing comma-space
pair is removed, but on the single entry a-comma the strings.TrimRight
cutset also strips the entry's own trailing comma, giving a bare a. -/
theorem c6_concat_counterexample :
    ConcatListNicely [['a', ',']] = ['a'] ∧ (['a'] : List Char) ≠ ['a', ','] :=
  ⟨by decide, by decide⟩

/-- C6 amended: ConcatListNicely joins the non-empty entries in order
with comma-space and then removes every trailing comma and space
character from the result (not only the one final separator); empty
entries contribute nothing; the two claimed examples hold. -/
theorem c6_concat_amended :
    (∀ list : List (List Char),
      ConcatListNicely list
        = trimRightCommaSpace (joinComma (list.filter isNonempty)))
    ∧ ConcatListNicely [] = []
    ∧ ConcatListNicely [['a'], [], ['b']] = ['a', ',', ' ', 'b'] := by
  refine ⟨?_, by decide, by decide⟩
  intro l
  unfold ConcatListNicely
  rw [foldl_concat_step]
  cases h : l.filter isNonempty with
  | nil => simp [joinComma]
  | cons f fs => rw [List.nil_append, flatTrail_cons_eq, trimRightCommaSpace_append_sep]

/-- C10: SplitLines returns one entry per input line, in order, the i-th
entry being the i-th line split on the separator by strings.Split. -/
theorem c10_splitLines_map (lines : List (List Char)) (sep : List Char) :
    (SplitLines lines sep).length = lines.length
    ∧ ∀ i, i < lines.length →
        (SplitLines lines sep).getD i [] = goSplit (lines.getD i []) sep := by
  constructor
  · simp [SplitLines]
  · intro i hi
    simp [SplitLines, List.getD_eq_getElem?_getD, List.getElem?_map,
      List.getElem?_eq_getElem hi]

/-- C10 witness at a concrete two-line input. -/
theorem c10_splitLines_map_witness :
    0 < ([['a', ';', 'b'], ['c']] : List (List Char)).length
    ∧ (SplitLines [['a', ';', 'b'], ['c']] [';']).getD 0 []
        = goSplit ['a', ';', 'b'] [';'] :=
  ⟨by decide, (c10_splitLines_map [['a', ';', 'b'], ['c']] [';']).2 0 (by decide)⟩

/-- C4 counterexample: on a non-string input the unchecked type assertion
in XmlPretty panics, so no degraded string result is produced. -/
theorem c4_xmlPretty_counterexample :
    XmlPretty (fun s => Except.ok s) (GoValue.intV 3) = Except.error ()
    ∧ exceptIsOk (XmlPretty (fun s => Except.ok s) (GoValue.intV 3)) = false :=
  ⟨rfl, rfl⟩

/-- C4 amended: for every non-string input XmlPretty panics on the type
assertion (the panic propagates, there is no recover), instead of
returning the degraded string used for serialization failures. -/
theorem c4_xmlPretty_amended (formatXML : List Char → Except (List Char) (List Char))
    (v : GoValue) (h : ∀ s, v ≠ GoValue.str s) :
    XmlPretty formatXML v = Except.error () := by
  cases v with
  | str s => exact absurd rfl (h s)
  | intV n => rfl
  | boolV b => rfl

/-- C4 witness at a concrete non-string value. -/
theorem c4_xmlPretty_amended_witness :
    XmlPretty (fun s => Except.ok s) (GoValue.intV 7) = Except.error () :=
  c4_xmlPretty_amended (fun s => Except.ok s) (GoValue.intV 7)
    (fun _ h => GoValue.noConfusion h)

/-- C7: the handle traces of the readers.  ReadCsvFile opens its file and
never closes it on any path (the code has no Close and no defer for it),
so the claim that every read helper closes its handle fails; LoadLines
and ReadFileBytes do close theirs, and NewCsvFile returns with the
handle open. -/
theorem c7_handle_close_evidence :
    closeCount (readCsvFileHandleTrace true) = 0
    ∧ openCount (readCsvFileHandleTrace true) = 1
    ∧ closeCount (loadLinesHandleTrace true) = 1
    ∧ closeCount (readFileBytesHandleTrace true) = 1
    ∧ closeCount (newCsvFileHandleTrace true) = 0 := by
  decide

/-- C2: the stdin reader returns exactly the non-blank trimmed lines of
the prefix of the input strictly before the first two adjacent blank
lines (end of stream behaving like a blank), and on the lines x, blank,
blank, y it returns exactly the list holding x. -/
theorem c2_readLines_termination :
    (∀ input : List (List Char),
      ReadLinesFromStdin input
        = (cutAtDoubleBlank (input.map trimRightCRLF)).filter (fun l => l ≠ []))
    ∧ ReadLinesFromStdin [['x'], [], [], ['y']] = [['x']] :=
  ⟨readLines_characterization, by decide⟩

/-- C8 counterexample: a returned stdin line keeps its leading white
space, so the lines are not trimmed of surrounding white space as the
LineSet shape demands. -/
theorem c8_stdin_trim_counterexample :
    ReadLinesFromStdin [[' ', 'x']] = [[' ', 'x']]
    ∧ goTrimSpace [' ', 'x'] ≠ [' ', 'x'] :=
  ⟨by decide, by decide⟩

/-- C8 amended: every returned stdin line is trimmed only of trailing
carriage returns and line feeds (not of surrounding white space), and the
returned lines are a subsequence of the trimmed input lines, in source
order. -/
theorem c8_stdin_lines_amended (input : List (List Char)) :
    (ReadLinesFromStdin input).Sublist (input.map trimRightCRLF)
    ∧ (ReadLinesFromStdin input).all (fun l => trimRightCRLF l == l) = true := by
  constructor
  · rw [readLines_characterization]
    exact (List.filter_sublist _).trans (cutAtDoubleBlank_sublist _)
  · rw [List.all_eq_true]
    intro l hl
    rw [readLines_characterization] at hl
    have h2 := (cutAtDoubleBlank_sublist (input.map trimRightCRLF)).subset
      (List.mem_of_mem_filter hl)
    obtain ⟨a, _, rfl⟩ := List.mem_map.mp h2
    simpa using trimRightCRLF_idem a

/-! Helper lemmas for the table renderer. -/

lemma splitNl_append (seg rest : List Char) (h : ∀ c ∈ seg, c ≠ '\n') :
    splitNl (seg ++ '\n' :: rest) = seg :: splitNl rest := by
  induction seg with
  | nil => simp [splitNl]
  | cons c seg' ih =>
    have hc : c ≠ '\n' := h c (List.mem_cons_self c seg')
    have ih2 := ih (fun d hd => h d (List.mem_cons_of_mem c hd))
    simp only [List.cons_append, splitNl, if_neg hc]
    rw [show seg'.append ('\n' :: rest) = seg' ++ '\n' :: rest from rfl, ih2]

lemma lineOf_no_nl (cells : List (List Char)) (h : ∀ cell ∈ cells, '\n' ∉ cell) :
    ∀ c ∈ lineOf cells, c ≠ '\n' := by
  intro c hc
  simp only [lineOf, List.mem_flatten, List.mem_map] at hc
  obtain ⟨x, ⟨cell, hcell, rfl⟩, hmem⟩ := hc
  rcases List.mem_append.mp hmem with h1 | h2
  · exact fun he => h cell hcell (he ▸ h1)
  · intro he
    rw [he] at h2
    simp at h2

lemma rowCells_no_nl (headers v : List (List Char))
    (hv : ∀ cell ∈ v, ('\n' : Char) ∉ cell) :
    ∀ cell ∈ rowCells headers v, ('\n' : Char) ∉ cell := by
  intro cell hc
  simp only [rowCells, List.mem_map, List.mem_range] at hc
  obtain ⟨i, _, rfl⟩ := hc
  rcases h2 : v[i]? with _ | c2
  · simp [List.getD_eq_getElem?_getD, h2]
  · have hmem := List.getElem?_mem h2
    simpa [List.getD_eq_getElem?_getD, h2] using hv c2 hmem

lemma map_fs_no_nl (headers : List (List Char)) :
    ∀ cell ∈ headers.map fs, ('\n' : Char) ∉ cell := by
  intro cell hc
  simp only [List.mem_map] at hc
  obtain ⟨col, _, rfl⟩ := hc
  simp [fs, List.mem_replicate]

lemma cellsLine_eq (cells : List (List Char)) :
    cellsLine cells = lineOf cells ++ ['\n'] := rfl

lemma splitNl_rows (headers : List (List Char)) (values : List (List (List Char)))
    (tail : List Char)
    (hv : ∀ r ∈ values, ∀ cell ∈ r, ('\n' : Char) ∉ cell) :
    splitNl ((values.map (fun v => cellsLine (rowCells headers v))).flatten ++ tail)
      = values.map (fun v => lineOf (rowCells headers v)) ++ splitNl tail := by
  induction values with
  | nil => simp
  | cons r vs ih =>
    have hr : ∀ cell ∈ r, ('\n' : Char) ∉ cell := hv r (List.mem_cons_self r vs)
    have ihv := ih (fun q hq => hv q (List.mem_cons_of_mem r hq))
    simp only [List.map_cons, List.flatten_cons]
    rw [List.append_assoc, cellsLine_eq, List.append_assoc, List.singleton_append,
      splitNl_append _ _ (lineOf_no_nl _ (rowCells_no_nl headers r hr)), ihv,
      List.cons_append]

/-- C9: the TabFlex emission, split at the line feeds, is exactly: the
header line, a dash line with one dash per character of each header, one
line per data row restricted to the header count (short rows padded with
empty cells, long rows truncated), and a closing dash line equal to the
first, followed by the empty segment after the final line feed; the
stream holds one line per data row plus three (the final empty segment
making the count plus four). -/
theorem c9_tabFlex_layout (headers : List (List Char)) (values : List (List (List Char)))
    (hh : headers.all (fun col => !col.contains '\n') = true)
    (hv : values.all (fun r => r.all (fun cell => !cell.contains '\n')) = true) :
    splitNl (TabFlexStream headers values)
      = lineOf headers :: lineOf (headers.map fs)
          :: (values.map (fun v => lineOf (rowCells headers v))
              ++ [lineOf (headers.map fs), []])
    ∧ (splitNl (TabFlexStream headers values)).length = values.length + 4
    ∧ headers.map fs = headers.map (fun col => List.replicate col.length '-') := by
  have hh2 : ∀ col ∈ headers, ('\n' : Char) ∉ col := by
    intro col hcol
    have := List.all_eq_true.mp hh col hcol
    simpa using this
  have hv2 : ∀ r ∈ values, ∀ cell ∈ r, ('\n' : Char) ∉ cell := by
    intro r hr cell hcell
    have h1 := List.all_eq_true.mp hv r hr
    have h2 := List.all_eq_true.mp h1 cell hcell
    simpa using h2
  have main : splitNl (TabFlexStream headers values)
      = lineOf headers :: lineOf (headers.map fs)
          :: (values.map (fun v => lineOf (rowCells headers v))
              ++ [lineOf (headers.map fs), []]) := by
    unfold TabFlexStream
    rw [cellsLine_eq, cellsLine_eq]
    simp only [List.append_assoc, List.cons_append, List.singleton_append,
      List.nil_append]
    rw [splitNl_append _ _ (lineOf_no_nl _ hh2),
      splitNl_append _ _ (lineOf_no_nl _ (map_fs_no_nl headers)),
      splitNl_rows headers values _ hv2,
      splitNl_append _ _ (lineOf_no_nl _ (map_fs_no_nl headers))]
    simp [splitNl]
  refine ⟨main, ?_, rfl⟩
  rw [main]
  simp only [List.length_cons, List.length_append, List.length_map, List.length_nil]
  try omega

/-- C9 witness at the claimed concrete table: two headers, two rows, and
five emitted lines (six split segments, the last empty). -/
theorem c9_tabFlex_layout_witness :
    ([[ 'A' ], ['B', 'B']] : List (List Char)).all (fun col => !col.contains '\n') = true
    ∧ ([[['1'], ['2']], [['3']]] : List (List (List Char))).all
        (fun r => r.all (fun cell => !cell.contains '\n')) = true
    ∧ (splitNl (TabFlexStream [['A'], ['B', 'B']] [[['1'], ['2']], [['3']]])).length
        = [[['1'], ['2']], [['3']]].length + 4 :=
  ⟨by decide, by decide,
    (c9_tabFlex_layout [['A'], ['B', 'B']] [[['1'], ['2']], [['3']]]
      (by decide) (by decide)).2.1⟩

/-! Helper lemmas for the CSV writer and reader. -/

lemma normalizeCRLF_id (cs : List Char) (h : ∀ c ∈ cs, c ≠ '\r') :
    normalizeCRLF cs = cs := by
  induction cs with
  | nil => rfl
  | cons c rest ih =>
    have hc : c ≠ '\r' := h c (List.mem_cons_self c rest)
    have ih2 := ih (fun d hd => h d (List.mem_cons_of_mem c hd))
    cases rest with
    | nil => simp [normalizeCRLF, hc]
    | cons c2 rest2 => simp [normalizeCRLF, hc, ih2]

lemma escapeQuoted_quote (rest : List Char) :
    escapeQuoted ('"' :: rest) = '"' :: '"' :: escapeQuoted rest := by
  simp [escapeQuoted]

lemma escapeQuoted_other (d : Char) (rest : List Char) (hd : d ≠ '"') :
    escapeQuoted (d :: rest) = d :: escapeQuoted rest := by
  simp [escapeQuoted, hd]

lemma mem_escapeQuoted (f : List Char) (c : Char) (h : c ∈ escapeQuoted f) :
    c ∈ f ∨ c = '"' := by
  induction f with
  | nil =>
    rw [show escapeQuoted [] = [] from rfl] at h
    exact absurd h (List.not_mem_nil c)
  | cons d rest ih =>
    by_cases hd : d = '"'
    · subst hd
      rw [escapeQuoted_quote] at h
      rcases List.mem_cons.mp h with rfl | h2
      · exact Or.inr rfl
      rcases List.mem_cons.mp h2 with rfl | h3
      · exact Or.inr rfl
      rcases ih h3 with h4 | h4
      · exact Or.inl (List.mem_cons_of_mem _ h4)
      · exact Or.inr h4
    · rw [escapeQuoted_other d rest hd] at h
      rcases List.mem_cons.mp h with rfl | h3
      · exact Or.inl (List.mem_cons_self _ _)
      rcases ih h3 with h4 | h4
      · exact Or.inl (List.mem_cons_of_mem _ h4)
      · exact Or.inr h4

lemma mem_writeField (f : List Char) (c : Char) (h : c ∈ writeField f) :
    c ∈ f ∨ c = '"' := by
  by_cases hq : fieldNeedsQuotes f
  · rw [show writeField f = '"' :: (escapeQuoted f ++ ['"']) from by
      simp [writeField, hq]] at h
    rcases List.mem_cons.mp h with rfl | h2
    · exact Or.inr rfl
    rcases List.mem_append.mp h2 with h3 | h3
    · exact mem_escapeQuoted f c h3
    rcases List.mem_cons.mp h3 with rfl | h4
    · exact Or.inr rfl
    · exact absurd h4 (List.not_mem_nil c)
  · rw [show writeField f = f from by simp [writeField, hq]] at h
    exact Or.inl h

lemma mem_recBody (r : List (List Char)) (c : Char) (h : c ∈ recBody r) :
    (∃ f ∈ r, c ∈ f) ∨ c = '"' ∨ c = ',' := by
  induction r with
  | nil => simp [recBody] at h
  | cons f rest ih =>
    cases rest with
    | nil =>
      rcases mem_writeField f c (by simpa [recBody] using h) with h2 | h2
      · exact Or.inl ⟨f, by simp, h2⟩
      · exact Or.inr (Or.inl h2)
    | cons g rest2 =>
      simp only [recBody, List.mem_append, List.mem_cons] at h
      rcases h with h2 | rfl | h3
      · rcases mem_writeField f c h2 with h4 | h4
        · exact Or.inl ⟨f, by simp, h4⟩
        · exact Or.inr (Or.inl h4)
      · exact Or.inr (Or.inr rfl)
      · rcases ih h3 with ⟨f2, hf2, hc2⟩ | h4
        · exact Or.inl ⟨f2, List.mem_cons_of_mem f hf2, hc2⟩
        · exact Or.inr h4

lemma mem_writeAll (rs : List (List (List Char))) (c : Char) (h : c ∈ writeAll rs) :
    (∃ r ∈ rs, ∃ f ∈ r, c ∈ f) ∨ c = '"' ∨ c = ',' ∨ c = '\n' := by
  induction rs with
  | nil => simp [writeAll] at h
  | cons r rest ih =>
    simp only [writeAll, writeRecord, List.mem_append, List.mem_singleton] at h
    rcases h with (h2 | rfl) | h3
    · rcases mem_recBody r c h2 with ⟨f, hf, hcf⟩ | h4 | h4
      · exact Or.inl ⟨r, by simp, f, hf, hcf⟩
      · exact Or.inr (Or.inl h4)
      · exact Or.inr (Or.inr (Or.inl h4))
    · exact Or.inr (Or.inr (Or.inr rfl))
    · rcases ih h3 with ⟨r2, hr2, f2, hf2, hc2⟩ | h4
      · exact Or.inl ⟨r2, List.mem_cons_of_mem r hr2, f2, hf2, hc2⟩
      · exact Or.inr h4

lemma writeAll_no_cr (rs : List (List (List Char)))
    (hf : ∀ r ∈ rs, ∀ f ∈ r, ('\r' : Char) ∉ f) :
    ∀ c ∈ writeAll rs, c ≠ '\r' := by
  intro c hc he
  subst he
  rcases mem_writeAll rs '\r' hc with ⟨r, hr, f, hf2, hcf⟩ | h | h | h
  · exact hf r hr f hf2 hcf
  · exact absurd h (by decide)
  · exact absurd h (by decide)
  · exact absurd h (by decide)

lemma quoted_other (acc : List Char) (c : Char) (rest : List Char) (hc : c ≠ '"') :
    quoted acc (c :: rest) = quoted (c :: acc) rest := by
  cases rest with
  | nil => simp [quoted, hc]
  | cons d rest2 => simp [quoted, hc]

lemma quoted_escape (f : List Char) : ∀ (acc t : List Char) (k : Char) (e : FieldEnd),
    (k = ',' ∧ e = FieldEnd.comma) ∨ (k = '\n' ∧ e = FieldEnd.newline) →
    quoted acc (escapeQuoted f ++ '"' :: k :: t) = some (acc.reverse ++ f, e, t) := by
  induction f with
  | nil =>
    intro acc t k e hk
    rcases hk with ⟨rfl, rfl⟩ | ⟨rfl, rfl⟩
    · simp [escapeQuoted, quoted]
    · simp [escapeQuoted, quoted]
  | cons c f' ih =>
    intro acc t k e hk
    by_cases hc : c = '"'
    · subst hc
      rw [escapeQuoted_quote, List.cons_append, List.cons_append]
      rw [show quoted acc ('"' :: '"' :: (escapeQuoted f' ++ '"' :: k :: t))
          = quoted ('"' :: acc) (escapeQuoted f' ++ '"' :: k :: t) from by
        simp [quoted]]
      rw [ih ('"' :: acc) t k e hk]
      simp
    · rw [escapeQuoted_other c f' hc, List.cons_append,
        quoted_other acc c _ hc, ih (c :: acc) t k e hk]
      simp

lemma unquoted_clean (f : List Char) : ∀ (acc t : List Char) (k : Char) (e : FieldEnd),
    (∀ c ∈ f, c ≠ ',' ∧ c ≠ '\n' ∧ c ≠ '"') →
    ((k = ',' ∧ e = FieldEnd.comma) ∨ (k = '\n' ∧ e = FieldEnd.newline)) →
    unquoted acc (f ++ k :: t) = some (acc.reverse ++ f, e, t) := by
  induction f with
  | nil =>
    intro acc t k e _ hk
    rcases hk with ⟨rfl, rfl⟩ | ⟨rfl, rfl⟩
    · simp [unquoted]
    · simp [unquoted]
  | cons c f' ih =>
    intro acc t k e hcl hk
    obtain ⟨h1, h2, h3⟩ := hcl c (List.mem_cons_self c f')
    simp only [List.cons_append]
    rw [show unquoted acc (c :: (f' ++ k :: t)) = unquoted (c :: acc) (f' ++ k :: t) from by
      simp [unquoted, h1, h2, h3]]
    rw [ih (c :: acc) t k e (fun d hd => hcl d (List.mem_cons_of_mem c hd)) hk]
    simp

lemma clean_of_not_quotes (f : List Char) (h : fieldNeedsQuotes f = false) :
    ∀ c ∈ f, c ≠ ',' ∧ c ≠ '"' ∧ c ≠ '\r' ∧ c ≠ '\n' := by
  intro c hc
  cases f with
  | nil => simp at hc
  | cons d rest =>
    simp only [fieldNeedsQuotes, Bool.or_eq_false_iff, List.any_eq_false] at h
    obtain ⟨⟨_, hall⟩, _⟩ := h
    have h2 := hall c hc
    simp only [Bool.or_eq_true, decide_eq_true_eq, not_or] at h2
    exact ⟨h2.1.1.1, h2.1.1.2, h2.1.2, h2.2⟩

lemma parseField1_write (f : List Char) (k : Char) (e : FieldEnd) (t : List Char)
    (hk : (k = ',' ∧ e = FieldEnd.comma) ∨ (k = '\n' ∧ e = FieldEnd.newline)) :
    parseField1 (writeField f ++ k :: t) = some (f, e, t) := by
  by_cases hq : fieldNeedsQuotes f
  · rw [show writeField f ++ k :: t = '"' :: (escapeQuoted f ++ '"' :: k :: t) from by
      simp [writeField, hq, List.append_assoc]]
    rw [show parseField1 ('"' :: (escapeQuoted f ++ '"' :: k :: t))
        = quoted [] (escapeQuoted f ++ '"' :: k :: t) from by simp [parseField1]]
    rw [quoted_escape f [] t k e hk]
    simp
  · have hclean := clean_of_not_quotes f (by simpa using hq)
    have hcl2 : ∀ c ∈ f, c ≠ ',' ∧ c ≠ '\n' ∧ c ≠ '"' := fun c hc =>
      ⟨(hclean c hc).1, (hclean c hc).2.2.2, (hclean c hc).2.1⟩
    rw [show writeField f = f from by simp [writeField, hq]]
    cases f with
    | nil =>
      have hk2 : k ≠ '"' := by rcases hk with ⟨rfl, _⟩ | ⟨rfl, _⟩ <;> decide
      rw [show parseField1 (([] : List Char) ++ k :: t) = unquoted [] (k :: t) from by
        simp [parseField1, hk2]]
      simpa using unquoted_clean [] [] t k e (by simp) hk
    | cons c f' =>
      have hc : c ≠ '"' := (hcl2 c (List.mem_cons_self c f')).2.2
      rw [show parseField1 ((c :: f') ++ k :: t) = unquoted [] ((c :: f') ++ k :: t) from by
        simp [parseField1, hc]]
      simpa using unquoted_clean (c :: f') [] t k e hcl2 hk

lemma parseRecAux_step_comma (m : Nat) (acc : List (List Char)) (cs : List Char)
    (f rest : List Char) (h : parseField1 cs = some (f, FieldEnd.comma, rest)) :
    parseRecAux (m + 1) acc cs = parseRecAux m (f :: acc) rest := by
  simp [parseRecAux, h]

lemma parseRecAux_step_newline (m : Nat) (acc : List (List Char)) (cs : List Char)
    (f rest : List Char) (h : parseField1 cs = some (f, FieldEnd.newline, rest)) :
    parseRecAux (m + 1) acc cs = some ((f :: acc).reverse, rest) := by
  simp [parseRecAux, h]

lemma recBody_length (r : List (List Char)) : r.length ≤ (recBody r).length + 1 := by
  induction r with
  | nil => simp
  | cons f rest ih =>
    cases rest with
    | nil => simp [recBody]
    | cons g rest2 =>
      simp only [recBody, List.length_append, List.length_cons] at ih ⊢
      omega

lemma parseRec_write (r : List (List Char)) : ∀ (acc : List (List Char)) (t : List Char)
    (fuel : Nat), r ≠ [] → r.length ≤ fuel →
    parseRecAux fuel acc (recBody r ++ '\n' :: t) = some (acc.reverse ++ r, t) := by
  induction r with
  | nil =>
    intro acc t fuel h _
    exact absurd rfl h
  | cons f r' ih =>
    intro acc t fuel _ hfuel
    cases fuel with
    | zero => simp at hfuel
    | succ m =>
      cases r' with
      | nil =>
        rw [show recBody [f] = writeField f from rfl]
        rw [parseRecAux_step_newline m acc _ f t
          (parseField1_write f '\n' FieldEnd.newline t (Or.inr ⟨rfl, rfl⟩))]
        simp
      | cons g r'' =>
        rw [show recBody (f :: g :: r'') = writeField f ++ ',' :: recBody (g :: r'')
          from rfl]
        rw [List.append_assoc, List.cons_append]
        rw [parseRecAux_step_comma m acc _ f _
          (parseField1_write f ',' FieldEnd.comma _ (Or.inl ⟨rfl, rfl⟩))]
        rw [ih (f :: acc) t m (by simp)
          (by simp only [List.length_cons] at hfuel ⊢; omega)]
        simp

lemma writeRecord_cons_shape (r : List (List Char)) (h1 : r ≠ []) (h2 : r ≠ [[]]) :
    ∃ c cs, writeRecord r = c :: cs ∧ c ≠ '\n' := by
  cases r with
  | nil => exact absurd rfl h1
  | cons f r' =>
    by_cases hq : fieldNeedsQuotes f
    · cases r' with
      | nil =>
        exact ⟨'"', (escapeQuoted f ++ ['"']) ++ ['\n'],
          by simp [writeRecord, recBody, writeField, hq], by decide⟩
      | cons g r'' =>
        exact ⟨'"', (escapeQuoted f ++ ['"']) ++ ',' :: recBody (g :: r'') ++ ['\n'],
          by simp [writeRecord, recBody, writeField, hq], by decide⟩
    · cases f with
      | nil =>
        cases r' with
        | nil => exact absurd rfl h2
        | cons g r'' =>
          exact ⟨',', recBody (g :: r'') ++ ['\n'],
            by simp [writeRecord, recBody, writeField, fieldNeedsQuotes], by decide⟩
      | cons c f'' =>
        have hc : c ≠ '\n' :=
          ((clean_of_not_quotes (c :: f'') (by simpa using hq)) c
            (List.mem_cons_self c f'')).2.2.2
        cases r' with
        | nil =>
          exact ⟨c, f'' ++ ['\n'],
            by simp [writeRecord, recBody, writeField, hq], hc⟩
        | cons g r'' =>
          exact ⟨c, f'' ++ ',' :: recBody (g :: r'') ++ ['\n'],
            by simp [writeRecord, recBody, writeField, hq], hc⟩

lemma skipBlanks_cons (c : Char) (cs : List Char) (hc : c ≠ '\n') :
    skipBlanks (c :: cs) = c :: cs := by
  simp [skipBlanks, hc]

lemma readAllAux_nil (fuel : Nat) (e : Option Nat) (acc : List (List (List Char))) :
    readAllAux fuel e acc [] = acc.reverse := by
  cases fuel with
  | zero => rfl
  | succ m => simp [readAllAux, skipBlanks]

lemma readAll_step_none (r : List (List Char)) (t : List Char)
    (acc : List (List (List Char))) (fuel : Nat) (h1 : r ≠ []) (h2 : r ≠ [[]]) :
    readAllAux (fuel + 1) none acc (writeRecord r ++ t)
      = readAllAux fuel (some r.length) (r :: acc) t := by
  obtain ⟨c, cs, hW, hcn⟩ := writeRecord_cons_shape r h1 h2
  have hskip : skipBlanks (writeRecord r ++ t) = c :: (cs ++ t) := by
    rw [hW, List.cons_append]
    exact skipBlanks_cons c (cs ++ t) hcn
  have hback : c :: (cs ++ t) = recBody r ++ '\n' :: t := by
    rw [← List.cons_append, ← hW, writeRecord, List.append_assoc, List.singleton_append]
  have hparse : parseRecAux ((c :: (cs ++ t)).length + 1) [] (c :: (cs ++ t))
      = some (r, t) := by
    rw [hback]
    have hlen : r.length ≤ (recBody r ++ '\n' :: t).length + 1 := by
      have := recBody_length r
      simp only [List.length_append, List.length_cons]
      omega
    simpa using parseRec_write r [] t _ h1 hlen
  simp only [readAllAux, hskip]
  rw [hparse]

lemma readAll_step_some (r : List (List Char)) (t : List Char)
    (acc : List (List (List Char))) (fuel : Nat) (n : Nat)
    (h1 : r ≠ []) (h2 : r ≠ [[]]) :
    readAllAux (fuel + 1) (some n) acc (writeRecord r ++ t)
      = if r.length = n then readAllAux fuel (some n) (r :: acc) t else acc.reverse := by
  obtain ⟨c, cs, hW, hcn⟩ := writeRecord_cons_shape r h1 h2
  have hskip : skipBlanks (writeRecord r ++ t) = c :: (cs ++ t) := by
    rw [hW, List.cons_append]
    exact skipBlanks_cons c (cs ++ t) hcn
  have hback : c :: (cs ++ t) = recBody r ++ '\n' :: t := by
    rw [← List.cons_append, ← hW, writeRecord, List.append_assoc, List.singleton_append]
  have hparse : parseRecAux ((c :: (cs ++ t)).length + 1) [] (c :: (cs ++ t))
      = some (r, t) := by
    rw [hback]
    have hlen : r.length ≤ (recBody r ++ '\n' :: t).length + 1 := by
      have := recBody_length r
      simp only [List.length_append, List.length_cons]
      omega
    simpa using parseRec_write r [] t _ h1 hlen
  simp only [readAllAux, hskip]
  rw [hparse]

lemma readAll_write (rs : List (List (List Char))) : ∀ (n : Nat)
    (acc : List (List (List Char))) (t : List Char) (fuel : Nat),
    (∀ r ∈ rs, r.length = n ∧ r ≠ [] ∧ r ≠ [[]]) →
    readAllAux (rs.length + fuel) (some n) acc (writeAll rs ++ t)
      = readAllAux fuel (some n) (rs.reverse ++ acc) t := by
  induction rs with
  | nil =>
    intro n acc t fuel _
    simp [writeAll]
  | cons r rs' ih =>
    intro n acc t fuel hrec
    obtain ⟨hlen, hne1, hne2⟩ := hrec r (List.mem_cons_self r rs')
    rw [show (r :: rs').length + fuel = (rs'.length + fuel) + 1 from by simp; omega]
    rw [show writeAll (r :: rs') ++ t = writeRecord r ++ (writeAll rs' ++ t) from by
      simp [writeAll]]
    rw [readAll_step_some r _ acc _ n hne1 hne2, if_pos hlen]
    rw [ih n (r :: acc) t fuel (fun q hq => hrec q (List.mem_cons_of_mem r hq))]
    simp

lemma writeAll_length (rs : List (List (List Char))) : rs.length ≤ (writeAll rs).length := by
  induction rs with
  | nil => simp [writeAll]
  | cons r rs' ih =>
    simp only [writeAll, writeRecord, List.length_append, List.length_cons,
      List.length_nil] at ih ⊢
    omega

lemma readAllAux_abort (fuel : Nat) (e : Option Nat) (acc : List (List (List Char)))
    (bad : List Char) (h1 : skipBlanks bad ≠ [])
    (h2 : ∀ fl, parseRecAux fl [] (skipBlanks bad) = none) :
    readAllAux (fuel + 1) e acc bad = acc.reverse := by
  obtain ⟨c, rest, hc⟩ := List.exists_cons_of_ne_nil h1
  have h3 := h2 ((c :: rest).length + 1)
  rw [hc] at h3
  simp only [List.length_cons] at h3
  simp [readAllAux, hc, h3]

lemma readCsv_decomposed (rs : List (List (List Char))) (t : List Char) (n : Nat)
    (hrec2 : ∀ r ∈ rs, r.length = n ∧ r ≠ [] ∧ r ≠ [[]])
    (hnocr : ∀ c ∈ writeAll rs ++ t, c ≠ '\r')
    (hcont : ∀ (fuel : Nat) (acc : List (List (List Char))) (e : Option Nat),
      1 ≤ fuel → readAllAux fuel e acc t = acc.reverse) :
    ReadCsvFile (writeAll rs ++ t) = rs := by
  unfold ReadCsvFile
  rw [normalizeCRLF_id _ hnocr]
  cases rs with
  | nil =>
    rw [show writeAll ([] : List (List (List Char))) ++ t = t from by simp [writeAll]]
    rw [hcont (t.length + 1) [] none (by omega)]
    rfl
  | cons r rs' =>
    obtain ⟨hlen, hne1, hne2⟩ := hrec2 r (List.mem_cons_self r rs')
    rw [show writeAll (r :: rs') ++ t = writeRecord r ++ (writeAll rs' ++ t) from by
      simp [writeAll]]
    rw [readAll_step_none r _ [] _ hne1 hne2, hlen]
    obtain ⟨m, hm⟩ : ∃ m,
        (writeRecord r ++ (writeAll rs' ++ t)).length = rs'.length + (m + 1) := by
      have h6 := writeAll_length rs'
      have h8 : (writeRecord r).length = (recBody r).length + 1 := by
        simp [writeRecord]
      refine ⟨(writeRecord r ++ (writeAll rs' ++ t)).length - rs'.length - 1, ?_⟩
      simp only [List.length_append] at h8 ⊢
      omega
    rw [hm, readAll_write rs' n [r] t (m + 1)
      (fun q hq => hrec2 q (List.mem_cons_of_mem r hq))]
    rw [hcont (m + 1) (rs'.reverse ++ [r]) (some n) (by omega)]
    simp

/-- C1 counterexample: a data row longer than the header makes the read
stop with ErrFieldCount after the header record, so the claimed
round-trip fails for header list a and single data row b, c. -/
theorem c1_roundtrip_counterexample :
    ReadCsvFile (CommaSepContent [['a']] [[['b'], ['c']]]) = [[['a']]]
    ∧ ([[['a']]] : List (List (List Char))) ≠ [[['a']], [['b'], ['c']]] :=
  ⟨by decide, by decide⟩

/-- C1 amended: the CommaSep write followed by ReadCsvFile returns the
header list as first row followed by the data rows with every field
unchanged, provided every data row has exactly as many fields as the
header, no record is the single empty field (its line would be blank and
skipped), and no field contains a carriage return (the reader rewrites
carriage-return line-feed pairs); commas, quotes, line feeds and leading
spaces in fields are preserved through quoting. -/
theorem c1_roundtrip_amended (headers : List (List Char)) (rows : List (List (List Char)))
    (hh1 : headers ≠ []) (hh2 : headers ≠ [[]])
    (hrows : ∀ r ∈ rows, r.length = headers.length ∧ r ≠ [[]])
    (hcr : ∀ r ∈ headers :: rows, ∀ f ∈ r, ('\r' : Char) ∉ f) :
    ReadCsvFile (CommaSepContent headers rows) = headers :: rows := by
  have hhl : 0 < headers.length := by
    cases headers with
    | nil => exact absurd rfl hh1
    | cons a b => simp
  have hrec2 : ∀ r ∈ headers :: rows, r.length = headers.length ∧ r ≠ [] ∧ r ≠ [[]] := by
    intro r hr
    rcases List.mem_cons.mp hr with rfl | hr2
    · exact ⟨rfl, hh1, hh2⟩
    · refine ⟨(hrows r hr2).1, ?_, (hrows r hr2).2⟩
      intro hnil
      have h5 := (hrows r hr2).1
      rw [hnil] at h5
      simp at h5
      omega
  have hnocr : ∀ c ∈ writeAll (headers :: rows) ++ ([] : List Char), c ≠ '\r' := by
    intro c hc
    exact writeAll_no_cr _ hcr c (by simpa using hc)
  have hcont : ∀ (fuel : Nat) (acc : List (List (List Char))) (e : Option Nat),
      1 ≤ fuel → readAllAux fuel e acc ([] : List Char) = acc.reverse :=
    fun fuel acc e _ => readAllAux_nil fuel e acc
  have hmain := readCsv_decomposed (headers :: rows) [] headers.length hrec2 hnocr hcont
  rw [show CommaSepContent headers rows = writeAll (headers :: rows) ++ ([] : List Char)
    from by simp [CommaSepContent, writeAll]]
  exact hmain

/-- C1 witness at a header pair and two data rows whose fields hold a
comma, a quote, a line feed and a leading space. -/
theorem c1_roundtrip_amended_witness :
    ReadCsvFile (CommaSepContent [['h'], ['i']]
        [[['a', ','], ['"']], [['x', '\n', 'y'], [' ', 'z']]])
      = [['h'], ['i']] :: [[['a', ','], ['"']], [['x', '\n', 'y'], [' ', 'z']]] :=
  c1_roundtrip_amended [['h'], ['i']] [[['a', ','], ['"']], [['x', '\n', 'y'], [' ', 'z']]]
    (by decide) (by decide) (by decide) (by decide)

/-- C5: when the stream is well-formed records followed by a suffix whose
first record fails to parse, ReadCsvFile returns exactly the well-formed
records before the bad one (fail-fast with partial results); and the
well-formed stream alone is read in full to end of input. -/
theorem c5_failfast (rs : List (List (List Char))) (bad : List Char) (n : Nat)
    (hn : 0 < n)
    (hrec : ∀ r ∈ rs, r.length = n ∧ r ≠ [[]])
    (hcr : ∀ r ∈ rs, ∀ f ∈ r, ('\r' : Char) ∉ f)
    (hbadcr : ∀ c ∈ bad, c ≠ '\r')
    (hbad1 : skipBlanks bad ≠ [])
    (hbad2 : ∀ fl, parseRecAux fl [] (skipBlanks bad) = none) :
    ReadCsvFile (writeAll rs ++ bad) = rs
    ∧ ReadCsvFile (writeAll rs) = rs := by
  have hrec2 : ∀ r ∈ rs, r.length = n ∧ r ≠ [] ∧ r ≠ [[]] := by
    intro r hr
    refine ⟨(hrec r hr).1, ?_, (hrec r hr).2⟩
    intro hnil
    have h5 := (hrec r hr).1
    rw [hnil] at h5
    simp at h5
    omega
  have hnocr1 : ∀ c ∈ writeAll rs ++ bad, c ≠ '\r' := by
    intro c hc
    rcases List.mem_append.mp hc with h | h
    · exact writeAll_no_cr rs hcr c h
    · exact hbadcr c h
  have hnocr2 : ∀ c ∈ writeAll rs ++ ([] : List Char), c ≠ '\r' := by
    intro c hc
    exact writeAll_no_cr rs hcr c (by simpa using hc)
  have hcontbad : ∀ (fuel : Nat) (acc : List (List (List Char))) (e : Option Nat),
      1 ≤ fuel → readAllAux fuel e acc bad = acc.reverse := by
    intro fuel acc e hf
    cases fuel with
    | zero => omega
    | succ m => exact readAllAux_abort m e acc bad hbad1 hbad2
  have hcontnil : ∀ (fuel : Nat) (acc : List (List (List Char))) (e : Option Nat),
      1 ≤ fuel → readAllAux fuel e acc ([] : List Char) = acc.reverse :=
    fun fuel acc e _ => readAllAux_nil fuel e acc
  refine ⟨readCsv_decomposed rs bad n hrec2 hnocr1 hcontbad, ?_⟩
  have h9 := readCsv_decomposed rs [] n hrec2 hnocr2 hcontnil
  simpa using h9

/-- C5 witness: one good record a, b followed by an unterminated quote;
the read returns just the good record, and without the bad suffix the
stream is read in full. -/
theorem c5_failfast_witness :
    ReadCsvFile (writeAll [[['a'], ['b']]] ++ ['"']) = [[['a'], ['b']]]
    ∧ ReadCsvFile (writeAll [[['a'], ['b']]]) = [[['a'], ['b']]] :=
  c5_failfast [[['a'], ['b']]] ['"'] 2 (by decide) (by decide) (by decide)
    (by decide) (by decide) (fun fl => by cases fl <;> rfl)

end Rw
